import Mathlib

/-
Verification of the balance-recalculation core of Trading_Tracker (src/app.py):
the function `recalculate_all_summaries` (app.py lines 481-611) and the
deposit-form submit handler (app.py lines 913-951).

Modelling conventions (shallow embedding):

* Money amounts are exact rationals.  The float literal `0.065` of the source
  is the rational `65 / 1000`, and Python's `round(x, 2)` is `round2` below
  (round half to even, the documented behaviour of Python's `round`).
* Calendar dates are day numbers (natural numbers) counted from 1970-01-01,
  which was a Thursday.  `daysFromCivil` / `civilFromDays` implement the
  standard proleptic-Gregorian conversions, and `isoWeek` computes the ISO-8601
  week number, the value of `date.isocalendar()[1]` used in app.py lines 496,
  530 and 595.  The `%Y-%m-%d` string rendering of a date is injective, so the
  string comparisons of the source (line 587) are date comparisons here.
* A raw trade record carries the parse results of its two relevant columns:
  `trade_date`, where `none` models a date string rejected by
  `pd.to_datetime(..., errors='coerce')` (a NaT), and `pnl`, where `none`
  models a value rejected by `pd.to_numeric(..., errors='coerce')` (a NaN,
  which `.fillna(0)` then turns into 0).  Other columns of the `trades` sheet
  are not read by the recomputation and are omitted.
* The previously persisted `daily_summary` sheet enters
  `recalculate_all_summaries` only through its `Date` and `Deposit/Bonus`
  columns (the left merge at app.py line 552) and through its emptiness test
  (line 548).  It is modelled as an association list of (date, deposit) pairs;
  `lookupDep` (first match, default 0) models the left merge followed by
  `pd.to_numeric(...).fillna(0.00)` for tables whose dates are unique, which
  is the shape this application writes.
-/

/-- Gregorian civil date (year, month, day) to day number since 1970-01-01
(Howard Hinnant's `days_from_civil`, specialised to nonnegative years). -/
def daysFromCivil (y m d : ℕ) : ℕ :=
  let y2 := if m ≤ 2 then y - 1 else y
  let era := y2 / 400
  let yoe := y2 % 400
  let mp := if 2 < m then m - 3 else m + 9
  let doy := (153 * mp + 2) / 5 + d - 1
  let doe := yoe * 365 + yoe / 4 - yoe / 100 + doy
  era * 146097 + doe - 719468

/-- Day number since 1970-01-01 back to the Gregorian civil date
(year, month, day): Howard Hinnant's `civil_from_days`. -/
def civilFromDays (z : ℕ) : ℕ × ℕ × ℕ :=
  let z2 := z + 719468
  let era := z2 / 146097
  let doe := z2 % 146097
  let yoe := (doe - doe / 1460 + doe / 36524 - doe / 146096) / 365
  let y := yoe + era * 400
  let doy := doe - (365 * yoe + yoe / 4 - yoe / 100)
  let mp := (5 * doy + 2) / 153
  let d := doy - (153 * mp + 2) / 5 + 1
  let m := if mp < 10 then mp + 3 else mp - 9
  (if m ≤ 2 then y + 1 else y, m, d)

/-- Weekday index with Monday = 0 (1970-01-01 was a Thursday, index 3). -/
def dowMon (z : ℕ) : ℕ := (z + 3) % 7

/-- Thursday of the ISO week containing day `z`. -/
def thursdayOf (z : ℕ) : ℕ := z - dowMon z + 3

/-- ISO-8601 week-based year of day `z`: the civil year of the Thursday of
its week. -/
def isoYearOf (z : ℕ) : ℕ := (civilFromDays (thursdayOf z)).1

/-- Monday starting ISO week 1 of year `y`: the Monday of the week that
contains January 4. -/
def week1Monday (y : ℕ) : ℕ := daysFromCivil y 1 4 - dowMon (daysFromCivil y 1 4)

/-- ISO-8601 week number of day `z`, the value of `date.isocalendar()[1]`
used by app.py for the `Week` column. -/
def isoWeek (z : ℕ) : ℕ := (z - week1Monday (isoYearOf z)) / 7 + 1

/-- Floor of a rational as an integer (the denominator of `Rat` is positive,
so Euclidean division of the numerator is the floor). -/
def qfloor (x : ℚ) : ℤ := Int.ediv x.num x.den

/-- Round a rational to the nearest integer, ties to the even integer: the
documented behaviour of Python's built-in `round`. -/
def roundHalfEven (x : ℚ) : ℤ :=
  let f := qfloor x
  let r := x - (f : ℚ)
  if r < 1 / 2 then f
  else if 1 / 2 < r then f + 1
  else if f % 2 = 0 then f else f + 1

/-- Python's `round(x, 2)`: round to the nearest hundredth. -/
def round2 (x : ℚ) : ℚ := ((roundHalfEven (100 * x) : ℤ) : ℚ) / 100

/-- One record of the `trades` sheet, after the type coercions of app.py
lines 509-510: `trade_date` is `none` for an unparseable date (NaT) and
`pnl` is `none` for a non-numeric profit (NaN). -/
structure RawTrade where
  trade_date : Option ℕ
  pnl : Option ℚ
deriving DecidableEq, Repr

/-- One row of the `daily_summary` sheet, with the columns written by
`recalculate_all_summaries`: Date, Week, Trades, Start Bal., Target P&L,
Actual P&L, Deposit/Bonus, End Bal..  The `Week` column is the string
`Wk {week}`, represented by the number `week`. -/
structure SummaryRow where
  date : ℕ
  week : ℕ
  tradeCount : ℕ
  startBal : ℚ
  targetPL : ℚ
  actualPL : ℚ
  deposit : ℚ
  endBal : ℚ
deriving DecidableEq, Repr

/-- Date cleaning and pnl cleaning of app.py lines 509-510 in one pass:
`pd.to_datetime(..., errors='coerce').dt.date.fillna(pd.NaT).ffill()` forward
fills an unparseable date with the most recent parseable one; a record before
the first parseable date keeps NaT and is then dropped by
`groupby('trade_date')` (NaT groups are dropped), which the recursion models
by skipping it.  `pd.to_numeric(..., errors='coerce').fillna(0)` turns a
non-numeric pnl into 0. -/
def ffillClean (last : Option ℕ) : List RawTrade → List (ℕ × ℚ)
  | [] => []
  | t :: rest =>
    match t.trade_date, last with
    | some d, _ => (d, t.pnl.getD 0) :: ffillClean (some d) rest
    | none, some d => (d, t.pnl.getD 0) :: ffillClean (some d) rest
    | none, none => ffillClean none rest

/-- Cleaned, dated trade list: the (trade_date, pnl) pairs that survive the
coercions and reach `groupby('trade_date')`. -/
def cleanTrades (raws : List RawTrade) : List (ℕ × ℚ) := ffillClean none raws

/-- Sum of pnl over the trades of one date: `group['pnl'].sum()`. -/
def pnlOn (ts : List (ℕ × ℚ)) (d : ℕ) : ℚ :=
  ((ts.filter fun p => p.1 == d).map Prod.snd).sum

/-- Number of trades of one date: `group.shape[0]`. -/
def countOn (ts : List (ℕ × ℚ)) (d : ℕ) : ℕ :=
  (ts.filter fun p => p.1 == d).length

/-- Insert a date into a strictly increasing date list, keeping it strictly
increasing (duplicates collapse). -/
def insertDate (d : ℕ) : List ℕ → List ℕ
  | [] => [d]
  | x :: xs =>
    if d < x then d :: x :: xs
    else if d = x then x :: xs
    else x :: insertDate d xs

/-- Distinct dates of a date list in ascending order: the group keys produced
by `sort_values(by='trade_date')` followed by `groupby('trade_date')`. -/
def sortedDates : List ℕ → List ℕ
  | [] => []
  | d :: ds => insertDate d (sortedDates ds)

/-- Input of one iteration of a summary-building loop of app.py: date, week
number, trade count, profit to add, deposit to add. -/
structure DayEntry where
  date : ℕ
  week : ℕ
  cnt : ℕ
  pl : ℚ
  dep : ℚ
deriving DecidableEq, Repr

/-- Common shape of the two summary-building loops of app.py (lines 521-542
and 560-579): fold over day entries carrying the full-precision running
balance, emitting each column rounded to 2 decimals.  The target profit is
`start_balance * 0.065`, overwritten with 0 when `start_balance <= 0`. -/
def foldRows (bal : ℚ) : List DayEntry → List SummaryRow
  | [] => []
  | e :: rest =>
    let eb := bal + e.pl + e.dep
    let tp := if bal ≤ 0 then 0 else bal * (65 / 1000)
    { date := e.date, week := e.week, tradeCount := e.cnt,
      startBal := round2 bal, targetPL := round2 tp, actualPL := round2 e.pl,
      deposit := round2 e.dep, endBal := round2 eb } :: foldRows eb rest

/-- Day entries of the first loop (app.py lines 521-542): one entry per
distinct trade date, pnl summed per date, deposit 0.00. -/
def pass1Entries (ts : List (ℕ × ℚ)) : List DayEntry :=
  (sortedDates (ts.map Prod.fst)).map fun d =>
    { date := d, week := isoWeek d, cnt := countOn ts d, pl := pnlOn ts d, dep := 0 }

/-- First summary-building loop: trades only, deposits 0. -/
def pass1 (init : ℚ) (ts : List (ℕ × ℚ)) : List SummaryRow :=
  foldRows init (pass1Entries ts)

/-- Deposit of a date in a (date, deposit) table: first matching row, else 0.
Models the left merge of app.py line 552 followed by
`pd.to_numeric(...).fillna(0.00)` (line 554). -/
def lookupDep : List (ℕ × ℚ) → ℕ → ℚ
  | [], _ => 0
  | p :: rest, d => if p.1 = d then p.2 else lookupDep rest d

/-- Day entries of the second loop (app.py lines 560-579): dates, weeks,
counts and the already rounded `Actual P&L` come from the first loop's rows;
the deposit comes from the old summary via the left merge. -/
def pass2Entries (old : List (ℕ × ℚ)) (rows : List SummaryRow) : List DayEntry :=
  rows.map fun r =>
    { date := r.date, week := r.week, cnt := r.tradeCount,
      pl := r.actualPL, dep := lookupDep old r.date }

/-- Second summary-building loop: re-folds the first loop's rows with the
old deposits merged in (app.py lines 558-579). -/
def pass2 (init : ℚ) (old : List (ℕ × ℚ)) (rows : List SummaryRow) : List SummaryRow :=
  foldRows init (pass2Entries old rows)

/-- Seed row of the empty-trades branch (app.py lines 493-506): a single row
for today with start = end = initial balance and target `initial * 0.065`
(not clamped and not rounded in the source). -/
def seedRow (init : ℚ) (today : ℕ) : SummaryRow :=
  { date := today, week := isoWeek today, tradeCount := 0,
    startBal := init, targetPL := init * (65 / 1000), actualPL := 0,
    deposit := 0, endBal := init }

/-- Synthetic trailing row for today (app.py lines 593-602): start = end =
last stored end balance, target `start * 0.065` (not clamped), no trades,
no deposit. -/
def todayRow (today : ℕ) (lastEnd : ℚ) : SummaryRow :=
  { date := today, week := isoWeek today, tradeCount := 0,
    startBal := round2 lastEnd, targetPL := round2 (lastEnd * (65 / 1000)),
    actualPL := 0, deposit := 0, endBal := round2 lastEnd }

/-- Trailing-row step (app.py lines 584-604): append a row for today when the
last row's date differs from today (the source compares the `%Y-%m-%d`
strings, which is date inequality). -/
def appendToday (today : ℕ) (rows : List SummaryRow) : List SummaryRow :=
  match rows.getLast? with
  | none => rows
  | some last => if last.date = today then rows else rows ++ [todayRow today last.endBal]

/-- Rows produced before the trailing-row step: the first loop alone when the
old summary is empty (app.py line 548), otherwise the second loop applied to
the first loop's rows. -/
def recomputeRows (init : ℚ) (ts old : List (ℕ × ℚ)) : List SummaryRow :=
  if old = [] then pass1 init ts else pass2 init old (pass1 init ts)

/-- The recomputation `recalculate_all_summaries` (app.py lines 481-611).
Arguments: initial balance, raw trade records, the previously persisted
summary as its (Date, Deposit/Bonus) pairs, and today's date.  Returns
`none` exactly when the source raises: with a nonempty trade sheet whose
cleaned dated trades are empty (all dates unparseable with no prior valid
row), the first loop builds an empty frame and `df_summary['Date']` at
app.py line 545 raises `KeyError`. -/
def recalculate_all_summaries (init : ℚ) (raws : List RawTrade)
    (old : List (ℕ × ℚ)) (today : ℕ) : Option (List SummaryRow) :=
  if raws = [] then some [seedRow init today]
  else if cleanTrades raws = [] then none
  else some (appendToday today (recomputeRows init (cleanTrades raws) old))

/-- The (Date, Deposit/Bonus) pairs of a summary, i.e. what a persisted
summary contributes to the next recomputation. -/
def depositsOf (rows : List SummaryRow) : List (ℕ × ℚ) :=
  rows.map fun r => (r.date, r.deposit)

/-- Placeholder summary row appended by the deposit handler for a date with
no existing summary row (app.py lines 929-941): all numeric fields 0 except
the deposit. -/
def placeholderRow (d : ℕ) (amount : ℚ) : SummaryRow :=
  { date := d, week := isoWeek d, tradeCount := 0, startBal := 0,
    targetPL := 0, actualPL := 0, deposit := amount, endBal := 0 }

/-- Deposit update of the deposit handler (app.py lines 922-927): add the
amount to the `Deposit/Bonus` of the first row whose date matches
(`.index[0]`). -/
def updateDeposit (d : ℕ) (amount : ℚ) : List SummaryRow → List SummaryRow
  | [] => []
  | r :: rest =>
    if r.date = d then { r with deposit := r.deposit + amount } :: rest
    else r :: updateDeposit d amount rest

/-- The deposit-form submit handler (app.py lines 913-951): refuse when no
summary exists; otherwise add the amount to the first row of the deposit's
date, or append a placeholder row when no row has that date; write the table
back and rerun `recalculate_all_summaries`, which reads it back as the old
summary.  The result is the summary persisted after the recomputation. -/
def recordDeposit (init : ℚ) (raws : List RawTrade) (summary : List SummaryRow)
    (d : ℕ) (amount : ℚ) (today : ℕ) : Option (List SummaryRow) :=
  if summary = [] then none
  else
    recalculate_all_summaries init raws
      (depositsOf
        (if d ∈ summary.map SummaryRow.date then updateDeposit d amount summary
         else summary ++ [placeholderRow d amount]))
      today

/-! Helper lemmas about rounding. -/

theorem qfloor_intCast (k : ℤ) : qfloor (k : ℚ) = k := by
  simp only [qfloor, Rat.num_intCast, Rat.den_intCast, Nat.cast_one]
  exact Int.ediv_one k

theorem roundHalfEven_intCast (k : ℤ) : roundHalfEven (k : ℚ) = k := by
  unfold roundHalfEven
  rw [qfloor_intCast]
  norm_num

theorem hundred_mul_int_div (k : ℤ) : (100 : ℚ) * ((k : ℚ) / 100) = (k : ℚ) := by
  field_simp

theorem round2_int_div_hundred (k : ℤ) : round2 ((k : ℚ) / 100) = (k : ℚ) / 100 := by
  unfold round2
  rw [hundred_mul_int_div, roundHalfEven_intCast]

theorem round2_round2 (x : ℚ) : round2 (round2 x) = round2 x := by
  have h : round2 x = ((roundHalfEven (100 * x) : ℤ) : ℚ) / 100 := rfl
  rw [h, round2_int_div_hundred]

theorem lookupDep_cent {old : List (ℕ × ℚ)}
    (h : ∀ p ∈ old, ∃ k : ℤ, p.2 = (k : ℚ) / 100) (d : ℕ) :
    ∃ k : ℤ, lookupDep old d = (k : ℚ) / 100 := by
  induction old with
  | nil => exact ⟨0, by norm_num [lookupDep]⟩
  | cons p rest ih =>
    by_cases hd : p.1 = d
    · simpa [lookupDep, hd] using h p (by simp)
    · simpa [lookupDep, hd] using ih (fun q hq => h q (by simp [hq]))

/-! Helper lemmas about the sorted distinct date list. -/

theorem mem_insertDate {a d : ℕ} : ∀ {l : List ℕ}, a ∈ insertDate d l ↔ a = d ∨ a ∈ l
  | [] => by simp [insertDate]
  | x :: xs => by
    by_cases h1 : d < x
    · simp [insertDate, h1]
    · by_cases h2 : d = x
      · subst h2
        simp [insertDate, h1]
      · simp [insertDate, h1, h2, @mem_insertDate a d xs]
        tauto

theorem pairwise_insertDate {d : ℕ} :
    ∀ {l : List ℕ}, List.Pairwise (· < ·) l → List.Pairwise (· < ·) (insertDate d l)
  | [], _ => by simp [insertDate]
  | x :: xs, h => by
    rcases List.pairwise_cons.mp h with ⟨hx, hxs⟩
    by_cases h1 : d < x
    · rw [insertDate, if_pos h1]
      refine List.pairwise_cons.mpr ⟨?_, h⟩
      intro b hb
      rcases List.mem_cons.mp hb with hb | hb
      · omega
      · exact lt_trans h1 (hx b hb)
    · by_cases h2 : d = x
      · rw [insertDate, if_neg h1, if_pos h2]
        exact h
      · rw [insertDate, if_neg h1, if_neg h2]
        refine List.pairwise_cons.mpr ⟨?_, pairwise_insertDate hxs⟩
        intro b hb
        rcases mem_insertDate.mp hb with hb | hb
        · omega
        · exact hx b hb

theorem sortedDates_pairwise : ∀ ds : List ℕ, List.Pairwise (· < ·) (sortedDates ds)
  | [] => by simp [sortedDates]
  | d :: ds => pairwise_insertDate (sortedDates_pairwise ds)

theorem mem_sortedDates {a : ℕ} : ∀ {ds : List ℕ}, a ∈ sortedDates ds ↔ a ∈ ds
  | [] => by simp [sortedDates]
  | d :: ds => by
    simp [sortedDates, mem_insertDate, @mem_sortedDates a ds]

theorem insertDate_ne_nil {d : ℕ} : ∀ {l : List ℕ}, insertDate d l ≠ []
  | [] => by simp [insertDate]
  | x :: xs => by
    by_cases h1 : d < x
    · simp [insertDate, h1]
    · by_cases h2 : d = x <;> simp [insertDate, h1, h2]

theorem sortedDates_ne_nil {ds : List ℕ} (h : ds ≠ []) : sortedDates ds ≠ [] := by
  cases ds with
  | nil => exact absurd rfl h
  | cons d ds => exact insertDate_ne_nil

/-! Helper lemmas about the summary-building fold. -/

theorem foldRows_map_date : ∀ (l : List DayEntry) (bal : ℚ),
    (foldRows bal l).map SummaryRow.date = l.map DayEntry.date
  | [], _ => rfl
  | e :: rest, bal => by
    simp [foldRows, foldRows_map_date rest]

theorem foldRows_map_week : ∀ (l : List DayEntry) (bal : ℚ),
    (foldRows bal l).map SummaryRow.week = l.map DayEntry.week
  | [], _ => rfl
  | e :: rest, bal => by
    simp [foldRows, foldRows_map_week rest]

theorem foldRows_length : ∀ (l : List DayEntry) (bal : ℚ),
    (foldRows bal l).length = l.length
  | [], _ => rfl
  | e :: rest, bal => by
    simp [foldRows, foldRows_length rest]

theorem foldRows_chain : ∀ (l : List DayEntry) (bal : ℚ),
    List.Chain' (fun a b => b.startBal = a.endBal) (foldRows bal l)
  | [], _ => List.chain'_nil
  | e :: rest, bal => by
    rw [foldRows]
    refine List.chain'_cons'.mpr ⟨?_, foldRows_chain rest (bal + e.pl + e.dep)⟩
    intro r hr
    cases rest with
    | nil => simp [foldRows] at hr
    | cons e2 rest2 =>
      rw [foldRows] at hr
      simp at hr
      rw [← hr]

theorem foldRows_head_startBal : ∀ {l : List DayEntry} (bal : ℚ) {r : SummaryRow},
    (foldRows bal l).head? = some r → r.startBal = round2 bal := by
  intro l bal r h
  cases l with
  | nil => simp [foldRows] at h
  | cons e rest =>
    rw [foldRows] at h
    simp at h
    rw [← h]

theorem foldRows_mem_round2_endBal : ∀ {l : List DayEntry} {bal : ℚ} {r : SummaryRow},
    r ∈ foldRows bal l → round2 r.endBal = r.endBal := by
  intro l
  induction l with
  | nil => intro bal r h; simp [foldRows] at h
  | cons e rest ih =>
    intro bal r h
    rw [foldRows] at h
    rcases List.mem_cons.mp h with h | h
    · rw [h]
      exact round2_round2 _
    · exact ih h

theorem foldRows_mem_entry : ∀ {l : List DayEntry} {bal : ℚ} {r : SummaryRow},
    r ∈ foldRows bal l →
    ∃ e ∈ l, r.date = e.date ∧ r.week = e.week ∧ r.deposit = round2 e.dep := by
  intro l
  induction l with
  | nil => intro bal r h; simp [foldRows] at h
  | cons e rest ih =>
    intro bal r h
    rw [foldRows] at h
    rcases List.mem_cons.mp h with h | h
    · exact ⟨e, by simp, by simp [h]⟩
    · rcases ih h with ⟨e2, he2, hprops⟩
      exact ⟨e2, by simp [he2], hprops⟩

theorem lookupDep_depositsOf_foldRows (g : ℕ → ℚ) :
    ∀ (l : List DayEntry) (bal : ℚ) (extra : List (ℕ × ℚ)) (d : ℕ),
      (∀ e ∈ l, e.dep = g e.date) → d ∈ l.map DayEntry.date →
      lookupDep (depositsOf (foldRows bal l) ++ extra) d = round2 (g d)
  | [], _, _, _, _, hmem => by simp at hmem
  | e :: rest, bal, extra, d, hdep, hmem => by
    rw [foldRows]
    by_cases hd : e.date = d
    · have : e.dep = g e.date := hdep e (by simp)
      simp [depositsOf, lookupDep, hd, this, hd ▸ this]
    · have hmem2 : d ∈ rest.map DayEntry.date := by
        rcases List.mem_map.mp hmem with ⟨e2, he2, hde2⟩
        rcases List.mem_cons.mp he2 with h | h
        · exact absurd (h ▸ hde2) hd
        · exact List.mem_map.mpr ⟨e2, h, hde2⟩
      simp only [depositsOf, List.map_cons, List.cons_append, lookupDep, if_neg hd]
      exact lookupDep_depositsOf_foldRows g rest (bal + e.pl + e.dep) extra d
        (fun e2 he2 => hdep e2 (by simp [he2])) hmem2

/-! Helper lemmas about lists and last elements. -/

theorem getLast?_mem : ∀ {l : List ℕ} {a : ℕ}, l.getLast? = some a → a ∈ l
  | [], a => by simp
  | [x], a => by
    intro h
    simp at h
    simp [h]
  | x :: y :: rest, a => by
    rw [List.getLast?_cons_cons]
    intro h
    exact List.mem_cons.mpr (Or.inr (getLast?_mem h))

theorem sorted_mem_le_getLast :
    ∀ {l : List ℕ}, List.Pairwise (· < ·) l →
      ∀ {x y : ℕ}, x ∈ l → l.getLast? = some y → x ≤ y
  | [], _, x, y, hx, _ => by simp at hx
  | [a], _, x, y, hx, hy => by
    simp at hx hy
    omega
  | a :: b :: rest, hp, x, y, hx, hy => by
    rw [List.getLast?_cons_cons] at hy
    rcases List.pairwise_cons.mp hp with ⟨ha, hp2⟩
    rcases List.mem_cons.mp hx with hx | hx
    · subst hx
      exact le_of_lt (ha y (getLast?_mem hy))
    · exact sorted_mem_le_getLast hp2 hx hy

/-! Helper lemmas about the recomputation pipeline. -/

theorem pass1_map_date (init : ℚ) (ts : List (ℕ × ℚ)) :
    (pass1 init ts).map SummaryRow.date = sortedDates (ts.map Prod.fst) := by
  rw [pass1, foldRows_map_date, pass1Entries, List.map_map]
  exact List.map_id _

theorem pass2_map_date (init : ℚ) (old : List (ℕ × ℚ)) (rows : List SummaryRow) :
    (pass2 init old rows).map SummaryRow.date = rows.map SummaryRow.date := by
  rw [pass2, foldRows_map_date, pass2Entries, List.map_map]
  rfl

theorem recomputeRows_map_date (init : ℚ) (ts old : List (ℕ × ℚ)) :
    (recomputeRows init ts old).map SummaryRow.date = sortedDates (ts.map Prod.fst) := by
  rw [recomputeRows]
  by_cases h : old = []
  · rw [if_pos h, pass1_map_date]
  · rw [if_neg h, pass2_map_date, pass1_map_date]

theorem recomputeRows_ne_nil {init : ℚ} {ts old : List (ℕ × ℚ)} (h : ts ≠ []) :
    recomputeRows init ts old ≠ [] := by
  intro hnil
  have hd := recomputeRows_map_date init ts old
  rw [hnil] at hd
  have : sortedDates (ts.map Prod.fst) ≠ [] :=
    sortedDates_ne_nil (by simpa using h)
  exact this hd.symm

theorem recalculate_cases {init : ℚ} {raws : List RawTrade} {old : List (ℕ × ℚ)}
    {today : ℕ} {out : List SummaryRow}
    (h : recalculate_all_summaries init raws old today = some out) :
    (raws = [] ∧ out = [seedRow init today]) ∨
    (raws ≠ [] ∧ cleanTrades raws ≠ [] ∧
      out = appendToday today (recomputeRows init (cleanTrades raws) old)) := by
  rw [recalculate_all_summaries] at h
  by_cases h1 : raws = []
  · rw [if_pos h1] at h
    exact Or.inl ⟨h1, by injection h with h; exact h.symm⟩
  · rw [if_neg h1] at h
    by_cases h2 : cleanTrades raws = []
    · rw [if_pos h2] at h
      exact absurd h (by simp)
    · rw [if_neg h2] at h
      exact Or.inr ⟨h1, h2, by injection h with h; exact h.symm⟩

theorem appendToday_map_date (today : ℕ) (rows : List SummaryRow) :
    (appendToday today rows).map SummaryRow.date = rows.map SummaryRow.date ∨
    ((appendToday today rows).map SummaryRow.date
        = rows.map SummaryRow.date ++ [today] ∧
      ∃ last, rows.getLast? = some last ∧ last.date ≠ today) := by
  cases hl : rows.getLast? with
  | none => exact Or.inl (by simp [appendToday, hl])
  | some last =>
    by_cases he : last.date = today
    · exact Or.inl (by simp [appendToday, hl, he])
    · exact Or.inr ⟨by simp [appendToday, hl, he, todayRow], last, rfl, he⟩

theorem mem_appendToday_of_mem {today : ℕ} {rows : List SummaryRow} {r : SummaryRow}
    (h : r ∈ rows) : r ∈ appendToday today rows := by
  cases hl : rows.getLast? with
  | none => simpa [appendToday, hl] using h
  | some last =>
    by_cases he : last.date = today
    · simpa [appendToday, hl, he] using h
    · simp only [appendToday, hl, if_neg he]
      exact List.mem_append_left _ h

theorem out_dates_sorted {init : ℚ} {raws : List RawTrade} {old : List (ℕ × ℚ)}
    {today : ℕ} {out : List SummaryRow}
    (h : recalculate_all_summaries init raws old today = some out)
    (hle : ∀ p ∈ cleanTrades raws, p.1 ≤ today) :
    List.Pairwise (· < ·) (out.map SummaryRow.date) := by
  rcases recalculate_cases h with ⟨_, hout⟩ | ⟨_, hts, hout⟩
  · subst hout
    simp
  · subst hout
    have hsorted : List.Pairwise (· < ·)
        ((recomputeRows init (cleanTrades raws) old).map SummaryRow.date) := by
      rw [recomputeRows_map_date]
      exact sortedDates_pairwise _
    rcases appendToday_map_date today (recomputeRows init (cleanTrades raws) old) with
      hmap | ⟨hmap, last, hlast, hne⟩
    · rw [hmap]; exact hsorted
    · rw [hmap]
      rw [List.pairwise_append]
      refine ⟨hsorted, by simp, ?_⟩
      intro x hx y hy
      rw [List.mem_singleton] at hy
      rw [hy]
      have hlastmem : ((recomputeRows init (cleanTrades raws) old).map
          SummaryRow.date).getLast? = some last.date := by
        rw [List.getLast?_map, hlast]
        rfl
      have hxle : x ≤ last.date := sorted_mem_le_getLast hsorted hx hlastmem
      have hlmem : last.date ∈ (recomputeRows init (cleanTrades raws) old).map
          SummaryRow.date := getLast?_mem hlastmem
      have : last.date ≤ today := by
        rw [recomputeRows_map_date] at hlmem
        rcases List.mem_map.mp (mem_sortedDates.mp hlmem) with ⟨p, hp, hpd⟩
        exact hpd ▸ hle p hp
      omega

theorem mem_appendToday {today : ℕ} {rows : List SummaryRow} {r : SummaryRow}
    (h : r ∈ appendToday today rows) :
    r ∈ rows ∨ ∃ lastEnd, r = todayRow today lastEnd := by
  rcases hl : rows.getLast? with _ | last
  · simp only [appendToday, hl] at h
    exact Or.inl h
  · by_cases he : last.date = today
    · simp only [appendToday, hl, if_pos he] at h
      exact Or.inl h
    · simp only [appendToday, hl, if_neg he] at h
      rcases List.mem_append.mp h with h | h
      · exact Or.inl h
      · exact Or.inr ⟨last.endBal, List.mem_singleton.mp h⟩

theorem appendToday_eq_or (today : ℕ) (rows : List SummaryRow) :
    appendToday today rows = rows ∨
    ∃ lastEnd, appendToday today rows = rows ++ [todayRow today lastEnd] := by
  rcases hl : rows.getLast? with _ | last
  · exact Or.inl (by simp only [appendToday, hl])
  · by_cases he : last.date = today
    · exact Or.inl (by simp only [appendToday, hl, if_pos he])
    · exact Or.inr ⟨last.endBal, by simp only [appendToday, hl, if_neg he]⟩

theorem pass1Entries_week (ts : List (ℕ × ℚ)) :
    ∀ e ∈ pass1Entries ts, e.week = isoWeek e.date := by
  intro e he
  rcases List.mem_map.mp he with ⟨d, _, hd⟩
  rw [← hd]

theorem recomputeRows_week (init : ℚ) (ts old : List (ℕ × ℚ)) :
    ∀ r ∈ recomputeRows init ts old, r.week = isoWeek r.date := by
  have hpass1 : ∀ r ∈ pass1 init ts, r.week = isoWeek r.date := by
    intro r hr
    rcases foldRows_mem_entry hr with ⟨e, he, hdate, hweek, _⟩
    rw [hdate, hweek, pass1Entries_week ts e he]
  intro r hr
  rw [recomputeRows] at hr
  by_cases h : old = []
  · rw [if_pos h] at hr
    exact hpass1 r hr
  · rw [if_neg h] at hr
    rcases foldRows_mem_entry hr with ⟨e, he, hdate, hweek, _⟩
    rcases List.mem_map.mp he with ⟨r2, hr2, he2⟩
    have : e.week = isoWeek e.date := by
      rw [← he2]
      exact hpass1 r2 hr2
    rw [hdate, hweek, this]

theorem out_week_isoWeek {init : ℚ} {raws : List RawTrade} {old : List (ℕ × ℚ)}
    {today : ℕ} {out : List SummaryRow}
    (h : recalculate_all_summaries init raws old today = some out) :
    ∀ r ∈ out, r.week = isoWeek r.date := by
  intro r hr
  rcases recalculate_cases h with ⟨_, hout⟩ | ⟨_, _, hout⟩
  · subst hout
    rw [List.mem_singleton.mp hr]
    rfl
  · subst hout
    rcases mem_appendToday hr with hmem | ⟨lastEnd, hr2⟩
    · exact recomputeRows_week init (cleanTrades raws) old r hmem
    · rw [hr2]
      rfl

theorem isoWeek_mono {d1 d2 : ℕ} (hle : d1 ≤ d2)
    (hy : isoYearOf d1 = isoYearOf d2) : isoWeek d1 ≤ isoWeek d2 := by
  rw [isoWeek, isoWeek, hy]
  exact Nat.add_le_add_right
    (Nat.div_le_div_right (Nat.sub_le_sub_right hle _)) 1

theorem chain_week_le : ∀ {l : List SummaryRow},
    List.Chain' (fun a b => a.date ≤ b.date) l →
    (∀ r ∈ l, r.week = isoWeek r.date) →
    (∀ r1 ∈ l, ∀ r2 ∈ l, isoYearOf r1.date = isoYearOf r2.date) →
    List.Chain' (fun a b => a.week ≤ b.week) l
  | [], _, _, _ => List.chain'_nil
  | [r], _, _, _ => List.chain'_singleton r
  | a :: b :: t, hd, hw, hy => by
    rcases List.chain'_cons.mp hd with ⟨hab, hrest⟩
    refine List.chain'_cons.mpr ⟨?_, ?_⟩
    · rw [hw a (by simp), hw b (by simp)]
      exact isoWeek_mono hab (hy a (by simp) b (by simp))
    · exact chain_week_le hrest (fun r hr => hw r (by simp [hr]))
        (fun r1 h1 r2 h2 => hy r1 (by simp [h1]) r2 (by simp [h2]))

/-! Helper lemmas about deposit lookup and the deposit handler. -/

theorem lookupDep_eq_zero_of_not_mem : ∀ {l : List (ℕ × ℚ)} {d : ℕ},
    d ∉ l.map Prod.fst → lookupDep l d = 0
  | [], _, _ => rfl
  | p :: rest, d, h => by
    have hne : p.1 ≠ d := by
      intro he
      exact h (by simp [he])
    rw [lookupDep, if_neg hne]
    exact lookupDep_eq_zero_of_not_mem (fun hm => h (by simp [hm]))

theorem lookupDep_append_right : ∀ {l1 l2 : List (ℕ × ℚ)} {d : ℕ},
    d ∉ l1.map Prod.fst → lookupDep (l1 ++ l2) d = lookupDep l2 d
  | [], _, _, _ => rfl
  | p :: rest, l2, d, h => by
    have hne : p.1 ≠ d := by
      intro he
      exact h (by simp [he])
    rw [List.cons_append, lookupDep, if_neg hne]
    exact lookupDep_append_right (fun hm => h (by simp [hm]))

theorem depositsOf_map_fst (rows : List SummaryRow) :
    (depositsOf rows).map Prod.fst = rows.map SummaryRow.date := by
  rw [depositsOf, List.map_map]
  rfl

theorem lookupDep_depositsOf_updateDeposit :
    ∀ {rows : List SummaryRow} {d : ℕ} {amount : ℚ},
      d ∈ rows.map SummaryRow.date →
      lookupDep (depositsOf (updateDeposit d amount rows)) d
        = lookupDep (depositsOf rows) d + amount
  | [], _, _, h => by simp at h
  | r :: rest, d, amount, h => by
    by_cases hd : r.date = d
    · rw [updateDeposit, if_pos hd]
      simp [depositsOf, lookupDep, hd]
    · have hmem : d ∈ rest.map SummaryRow.date := by
        rcases List.mem_map.mp h with ⟨r2, hr2, hd2⟩
        rcases List.mem_cons.mp hr2 with h2 | h2
        · exact absurd (h2 ▸ hd2) hd
        · exact List.mem_map.mpr ⟨r2, h2, hd2⟩
      rw [updateDeposit, if_neg hd]
      simp only [depositsOf, List.map_cons, lookupDep, if_neg hd]
      exact lookupDep_depositsOf_updateDeposit hmem

theorem updateDeposit_ne_nil {rows : List SummaryRow} {d : ℕ} {amount : ℚ}
    (h : rows ≠ []) : updateDeposit d amount rows ≠ [] := by
  cases rows with
  | nil => exact absurd rfl h
  | cons r rest =>
    rw [updateDeposit]
    by_cases hd : r.date = d
    · rw [if_pos hd]; simp
    · rw [if_neg hd]; simp

theorem summary_getLast?_mem : ∀ {l : List SummaryRow} {a : SummaryRow},
    l.getLast? = some a → a ∈ l
  | [], a => by simp
  | [x], a => by
    intro h
    simp at h
    simp [h]
  | x :: y :: rest, a => by
    rw [List.getLast?_cons_cons]
    intro h
    exact List.mem_cons.mpr (Or.inr (summary_getLast?_mem h))

theorem appendToday_chain_foldRows (today : ℕ) (bal : ℚ) (l : List DayEntry) :
    List.Chain' (fun a b => b.startBal = a.endBal) (appendToday today (foldRows bal l)) := by
  rcases hl : (foldRows bal l).getLast? with _ | last
  · simp only [appendToday, hl]
    exact foldRows_chain l bal
  · by_cases he : last.date = today
    · simp only [appendToday, hl, if_pos he]
      exact foldRows_chain l bal
    · simp only [appendToday, hl, if_neg he]
      rw [List.chain'_append]
      refine ⟨foldRows_chain l bal, List.chain'_singleton _, ?_⟩
      intro x hx y hy
      rw [hl] at hx
      injection hx with hx
      simp at hy
      rw [← hy, ← hx]
      show round2 last.endBal = last.endBal
      exact foldRows_mem_round2_endBal (summary_getLast?_mem hl)

theorem recomputeRows_eq_foldRows (init : ℚ) (ts old : List (ℕ × ℚ)) :
    ∃ l, recomputeRows init ts old = foldRows init l := by
  rw [recomputeRows]
  by_cases h : old = []
  · exact ⟨pass1Entries ts, by rw [if_pos h, pass1]⟩
  · exact ⟨pass2Entries old (pass1 init ts), by rw [if_neg h, pass2]⟩

theorem appendToday_head? {today : ℕ} {rows : List SummaryRow} (h : rows ≠ []) :
    (appendToday today rows).head? = rows.head? := by
  rcases appendToday_eq_or today rows with he | ⟨lastEnd, he⟩
  · rw [he]
  · rw [he]
    cases rows with
    | nil => exact absurd rfl h
    | cons a t => simp

theorem foldRows_head_of_ne_nil {bal : ℚ} {l : List DayEntry} (h : foldRows bal l ≠ []) :
    (foldRows bal l).head?.map SummaryRow.startBal = some (round2 bal) := by
  cases l with
  | nil => exact absurd rfl h
  | cons e rest =>
    rw [foldRows]
    simp [round2_round2]

theorem pass2Entries_dep (old : List (ℕ × ℚ)) (rows : List SummaryRow) :
    ∀ e ∈ pass2Entries old rows, e.dep = lookupDep old e.date := by
  intro e he
  rcases List.mem_map.mp he with ⟨r, _, hr⟩
  rw [← hr]

theorem pass2Entries_map_date (old : List (ℕ × ℚ)) (rows : List SummaryRow) :
    (pass2Entries old rows).map DayEntry.date = rows.map SummaryRow.date := by
  rw [pass2Entries, List.map_map]
  rfl

theorem pass2_congr {init : ℚ} {old1 old2 : List (ℕ × ℚ)} {rows : List SummaryRow}
    (h : ∀ r ∈ rows, lookupDep old1 r.date = lookupDep old2 r.date) :
    pass2 init old1 rows = pass2 init old2 rows := by
  rw [pass2, pass2]
  congr 1
  rw [pass2Entries, pass2Entries]
  exact List.map_congr_left fun r hr => by rw [h r hr]

theorem depositBranch_lookup (summary : List SummaryRow) (d : ℕ) (amount : ℚ) :
    lookupDep (depositsOf (if d ∈ summary.map SummaryRow.date
        then updateDeposit d amount summary
        else summary ++ [placeholderRow d amount])) d
      = lookupDep (depositsOf summary) d + amount := by
  by_cases h : d ∈ summary.map SummaryRow.date
  · rw [if_pos h]
    exact lookupDep_depositsOf_updateDeposit h
  · rw [if_neg h]
    have hnot : d ∉ (depositsOf summary).map Prod.fst := by
      rw [depositsOf_map_fst]
      exact h
    rw [depositsOf, List.map_append, ← depositsOf, ← depositsOf,
      lookupDep_append_right hnot, lookupDep_eq_zero_of_not_mem hnot]
    simp [depositsOf, placeholderRow, lookupDep]

theorem lookupDep_out_of_pass2 {init : ℚ} {old : List (ℕ × ℚ)} {today : ℕ}
    {p1 : List SummaryRow} {d : ℕ} (hd : d ∈ p1.map SummaryRow.date) :
    lookupDep (depositsOf (appendToday today (pass2 init old p1))) d
      = round2 (lookupDep old d) := by
  rcases appendToday_eq_or today (pass2 init old p1) with he | ⟨lastEnd, he⟩
  · rw [he, pass2, ← List.append_nil (depositsOf (foldRows init (pass2Entries old p1)))]
    exact lookupDep_depositsOf_foldRows (lookupDep old) (pass2Entries old p1) init [] d
      (pass2Entries_dep old p1) (by rw [pass2Entries_map_date]; exact hd)
  · rw [he, depositsOf, List.map_append, ← depositsOf, ← depositsOf, pass2]
    exact lookupDep_depositsOf_foldRows (lookupDep old) (pass2Entries old p1) init
      (depositsOf [todayRow today lastEnd]) d
      (pass2Entries_dep old p1) (by rw [pass2Entries_map_date]; exact hd)

theorem appendToday_ne_nil {today : ℕ} {rows : List SummaryRow} (h : rows ≠ []) :
    appendToday today rows ≠ [] := by
  rcases appendToday_eq_or today rows with he | ⟨lastEnd, he⟩
  · rw [he]; exact h
  · rw [he]; simp

theorem cleanTrades_nil : cleanTrades [] = [] := rfl

/-! Claim theorems.  Concrete evaluations need the kernel to unfold the
rational-number operations, which Batteries seals; the section below makes
them semireducible locally. -/

section ClaimEvaluations

attribute [local semireducible] Rat.add Rat.mul Rat.inv Rat.sub Rat.ofScientific

/-- C10: with an empty trade sheet, `recalculate_all_summaries` replaces the
whole persisted summary by the single seed row for today without reading the
previously persisted summary: the result is the same constant for every
`old`, and its one row carries deposit 0, so every previously recorded
per-date deposit amount is discarded from the output. -/
theorem c10_empty_history_overwrites_deposits (init : ℚ) (old : List (ℕ × ℚ))
    (today : ℕ) :
    recalculate_all_summaries init [] old today = some [seedRow init today] ∧
    (seedRow init today).deposit = 0 := by
  constructor
  · rw [recalculate_all_summaries, if_pos rfl]
  · rfl

/-- C8: counterexample to "recompute completes for every input trade list":
when every trade record has an unparseable date (here the single record),
every row is dropped by `groupby` and `df_summary['Date']` at app.py line 545
raises `KeyError` (modelled by `none`), instead of returning a full summary. -/
theorem c8_crash_on_all_unparseable_dates :
    recalculate_all_summaries 100 [⟨none, some 1⟩] [] (daysFromCivil 2024 1 1)
      = none := by
  decide

/-- C4: counterexample to the target clamp on the synthetic trailing row:
with initial balance 1000 and one trade of -3000 on 2024-01-01, the trailing
row for today 2024-01-02 has start_balance -2000 <= 0 but target_profit
-130 < 0 (app.py line 591 computes `today_start_bal * 0.065` without the
clamp applied in the main loop). -/
theorem c4_trailing_row_negative_target :
    recalculate_all_summaries 1000
        [⟨some (daysFromCivil 2024 1 1), some (-3000)⟩] [] (daysFromCivil 2024 1 2)
      = some [⟨daysFromCivil 2024 1 1, 1, 1, 1000, 65, -3000, 0, -2000⟩,
              ⟨daysFromCivil 2024 1 2, 1, 0, -2000, -130, 0, 0, -2000⟩] ∧
    (-2000 : ℚ) ≤ 0 ∧ (-130 : ℚ) < 0 := by
  decide

/-- C1: counterexample to deposit preservation: the previously persisted
summary carries deposit 50 on X = 2024-01-02 (a date with no trades), the
trade inserted on Y = 2024-01-01 differs from X, and the prior deposits are
passed back in; yet the recomputed output has no row for X at all, deposit 50
appears nowhere, and the end balances (110) do not include it: the left merge
at app.py line 552 keeps only trade dates. -/
theorem c1_deposit_on_tradeless_date_lost :
    recalculate_all_summaries 100
        [⟨some (daysFromCivil 2024 1 1), some 10⟩]
        [(daysFromCivil 2024 1 2, 50)] (daysFromCivil 2024 1 3)
      = some [⟨daysFromCivil 2024 1 1, 1, 1, 100, 13/2, 10, 0, 110⟩,
              ⟨daysFromCivil 2024 1 3, 1, 0, 110, 143/20, 0, 0, 110⟩] ∧
    daysFromCivil 2024 1 2
      ∉ ((recalculate_all_summaries 100
          [⟨some (daysFromCivil 2024 1 1), some 10⟩]
          [(daysFromCivil 2024 1 2, 50)] (daysFromCivil 2024 1 3)).getD []).map
          SummaryRow.date ∧
    (50 : ℚ)
      ∉ ((recalculate_all_summaries 100
          [⟨some (daysFromCivil 2024 1 1), some 10⟩]
          [(daysFromCivil 2024 1 2, 50)] (daysFromCivil 2024 1 3)).getD []).map
          SummaryRow.deposit := by
  decide

/-- C2: counterexample to "output dates = trade dates union nonzero deposit
dates": 2024-01-02 has a nonzero prior deposit (50) and no trades, and today
is 2024-01-01 so no trailing row is added; yet the emitted dates are only the
trade date 2024-01-01. -/
theorem c2_counterexample :
    ((recalculate_all_summaries 100
        [⟨some (daysFromCivil 2024 1 1), some 10⟩]
        [(daysFromCivil 2024 1 2, 50)] (daysFromCivil 2024 1 1)).getD []).map
        SummaryRow.date
      = [daysFromCivil 2024 1 1] ∧
    lookupDep [(daysFromCivil 2024 1 2, 50)] (daysFromCivil 2024 1 2) ≠ 0 ∧
    daysFromCivil 2024 1 2 ≠ daysFromCivil 2024 1 1 := by
  decide

/-- C2 (amended): the dates of the rows emitted before the optional trailing
row are exactly the dates with at least one (cleaned) trade event, sorted
strictly ascending; dates whose only activity is a previously persisted
deposit are not included. -/
theorem c2_dates_are_exactly_trade_dates (init : ℚ) (raws : List RawTrade)
    (old : List (ℕ × ℚ)) (today : ℕ)
    (h1 : raws ≠ []) (h2 : cleanTrades raws ≠ []) :
    recalculate_all_summaries init raws old today
      = some (appendToday today (recomputeRows init (cleanTrades raws) old)) ∧
    (recomputeRows init (cleanTrades raws) old).map SummaryRow.date
      = sortedDates ((cleanTrades raws).map Prod.fst) ∧
    ((recomputeRows init (cleanTrades raws) old).map SummaryRow.date).toFinset
      = ((cleanTrades raws).map Prod.fst).toFinset ∧
    List.Pairwise (· < ·)
      ((recomputeRows init (cleanTrades raws) old).map SummaryRow.date) := by
  refine ⟨?_, recomputeRows_map_date init (cleanTrades raws) old, ?_, ?_⟩
  · rw [recalculate_all_summaries, if_neg h1, if_neg h2]
  · ext a
    simp only [List.mem_toFinset, recomputeRows_map_date]
    exact mem_sortedDates
  · rw [recomputeRows_map_date]
    exact sortedDates_pairwise _

/-- C2 witness: the amended statement at a concrete input. -/
theorem c2_witness :
    recalculate_all_summaries 100 [⟨some (daysFromCivil 2024 1 1), some 10⟩] []
        (daysFromCivil 2024 1 2)
      = some (appendToday (daysFromCivil 2024 1 2)
          (recomputeRows 100
            (cleanTrades [⟨some (daysFromCivil 2024 1 1), some 10⟩]) [])) ∧
    (recomputeRows 100
        (cleanTrades [⟨some (daysFromCivil 2024 1 1), some 10⟩]) []).map
        SummaryRow.date
      = sortedDates ((cleanTrades
          [⟨some (daysFromCivil 2024 1 1), some 10⟩]).map Prod.fst) ∧
    ((recomputeRows 100
        (cleanTrades [⟨some (daysFromCivil 2024 1 1), some 10⟩]) []).map
        SummaryRow.date).toFinset
      = ((cleanTrades [⟨some (daysFromCivil 2024 1 1), some 10⟩]).map
          Prod.fst).toFinset ∧
    List.Pairwise (· < ·)
      ((recomputeRows 100
        (cleanTrades [⟨some (daysFromCivil 2024 1 1), some 10⟩]) []).map
        SummaryRow.date) :=
  c2_dates_are_exactly_trade_dates 100 _ [] _ (by decide) (by decide)

end ClaimEvaluations

section ClaimEvaluations2

attribute [local semireducible] Rat.add Rat.mul Rat.inv Rat.sub Rat.ofScientific

/-- C3 (amended): every summary sequence returned satisfies balance
continuity row by row (each row's stored start balance equals the previous
row's stored end balance), and the first row's start balance is the
caller-supplied initial balance rounded to 2 decimals (exactly the initial
balance in the empty-history seed branch, which does not round). -/
theorem c3_balance_continuity (init : ℚ) (raws : List RawTrade)
    (old : List (ℕ × ℚ)) (today : ℕ) (out : List SummaryRow)
    (h : recalculate_all_summaries init raws old today = some out) :
    List.Chain' (fun a b => b.startBal = a.endBal) out ∧
    out.head?.map SummaryRow.startBal
      = some (if raws = [] then init else round2 init) := by
  rcases recalculate_cases h with ⟨hraw, hout⟩ | ⟨hraw, hts, hout⟩
  · subst hout
    rw [if_pos hraw]
    exact ⟨List.chain'_singleton _, rfl⟩
  · subst hout
    rcases recomputeRows_eq_foldRows init (cleanTrades raws) old with ⟨l, hl⟩
    constructor
    · rw [hl]
      exact appendToday_chain_foldRows today init l
    · rw [if_neg hraw]
      have hne : recomputeRows init (cleanTrades raws) old ≠ [] :=
        recomputeRows_ne_nil hts
      rw [appendToday_head? hne, hl]
      exact foldRows_head_of_ne_nil (hl ▸ hne)

/-- C3 counterexample: with initial balance 250.004 (= 62501/250) and one
trade, the first emitted row's start balance is the rounded 250, not the
caller-supplied initial balance (app.py line 536 stores `round(..., 2)`). -/
theorem c3_counterexample :
    ((recalculate_all_summaries (62501 / 250)
        [⟨some (daysFromCivil 2024 1 2), some 0⟩] []
        (daysFromCivil 2024 1 2)).getD []).head?.map SummaryRow.startBal
      = some 250 ∧
    (62501 : ℚ) / 250 ≠ 250 := by
  decide

/-- C3 witness: the amended statement at a concrete input. -/
theorem c3_witness :
    List.Chain' (fun a b => b.startBal = a.endBal)
      ((recalculate_all_summaries 100 [⟨some (daysFromCivil 2024 1 1), some 10⟩]
          [] (daysFromCivil 2024 1 2)).getD []) ∧
    ((recalculate_all_summaries 100 [⟨some (daysFromCivil 2024 1 1), some 10⟩]
        [] (daysFromCivil 2024 1 2)).getD []).head?.map SummaryRow.startBal
      = some (if ([⟨some (daysFromCivil 2024 1 1), some 10⟩] : List RawTrade) = []
          then 100 else round2 100) :=
  c3_balance_continuity 100 [⟨some (daysFromCivil 2024 1 1), some 10⟩] []
    (daysFromCivil 2024 1 2)
    ((recalculate_all_summaries 100 [⟨some (daysFromCivil 2024 1 1), some 10⟩]
        [] (daysFromCivil 2024 1 2)).getD [])
    (by decide)

/-- C6: counterexample to "dates strictly ascending after the trailing row is
appended": a trade dated 2030-01-01 lies after today 2024-06-01; the source
appends the trailing row because the last date merely differs from today
(app.py line 587 tests inequality, not "strictly before"), so the output
dates are [2030-01-01, 2024-06-01], not ascending. -/
theorem c6_counterexample :
    ((recalculate_all_summaries 100 [⟨some (daysFromCivil 2030 1 1), some 10⟩]
        [] (daysFromCivil 2024 6 1)).getD []).map SummaryRow.date
      = [daysFromCivil 2030 1 1, daysFromCivil 2024 6 1] ∧
    daysFromCivil 2024 6 1 < daysFromCivil 2030 1 1 := by
  decide

/-- C6 (amended): provided every cleaned trade date is on or before today,
the dates of the returned summary sequence are strictly ascending and contain
no duplicates, including after the synthetic trailing row is appended. -/
theorem c6_sorted_of_no_future_dates (init : ℚ) (raws : List RawTrade)
    (old : List (ℕ × ℚ)) (today : ℕ) (out : List SummaryRow)
    (h : recalculate_all_summaries init raws old today = some out)
    (hle : ∀ p ∈ cleanTrades raws, p.1 ≤ today) :
    List.Pairwise (· < ·) (out.map SummaryRow.date) ∧
    (out.map SummaryRow.date).Nodup := by
  have hp := out_dates_sorted h hle
  exact ⟨hp, hp.imp Nat.ne_of_lt⟩

/-- C6 witness: the amended statement at a concrete input. -/
theorem c6_witness :
    List.Pairwise (· < ·)
      (((recalculate_all_summaries 100 [⟨some (daysFromCivil 2024 1 1), some 10⟩]
          [] (daysFromCivil 2024 1 2)).getD []).map SummaryRow.date) ∧
    (((recalculate_all_summaries 100 [⟨some (daysFromCivil 2024 1 1), some 10⟩]
        [] (daysFromCivil 2024 1 2)).getD []).map SummaryRow.date).Nodup :=
  c6_sorted_of_no_future_dates 100 [⟨some (daysFromCivil 2024 1 1), some 10⟩] []
    (daysFromCivil 2024 1 2)
    ((recalculate_all_summaries 100 [⟨some (daysFromCivil 2024 1 1), some 10⟩]
        [] (daysFromCivil 2024 1 2)).getD [])
    (by decide) (by decide)

/-- C9: counterexample to week-index monotonicity under the implemented
policy (the bare ISO week number): trades on 2023-12-25 (ISO week 52) and
2024-01-08 (ISO week 2) give strictly increasing dates but week numbers
[52, 2], which are not non-decreasing, because the ISO week number resets at
the turn of the ISO year. -/
theorem c9_counterexample :
    ((recalculate_all_summaries 100
        [⟨some (daysFromCivil 2023 12 25), some 1⟩,
         ⟨some (daysFromCivil 2024 1 8), some 1⟩] []
        (daysFromCivil 2024 1 8)).getD []).map SummaryRow.date
      = [daysFromCivil 2023 12 25, daysFromCivil 2024 1 8] ∧
    daysFromCivil 2023 12 25 < daysFromCivil 2024 1 8 ∧
    ((recalculate_all_summaries 100
        [⟨some (daysFromCivil 2023 12 25), some 1⟩,
         ⟨some (daysFromCivil 2024 1 8), some 1⟩] []
        (daysFromCivil 2024 1 8)).getD []).map SummaryRow.week = [52, 2] ∧
    (2 : ℕ) < 52 := by
  decide

/-- C9 (amended): provided every cleaned trade date is on or before today and
all dates of the returned rows fall in one ISO year, the week field is
non-decreasing along the returned summary sequence. -/
theorem c9_week_monotone_same_isoyear (init : ℚ) (raws : List RawTrade)
    (old : List (ℕ × ℚ)) (today : ℕ) (out : List SummaryRow)
    (h : recalculate_all_summaries init raws old today = some out)
    (hle : ∀ p ∈ cleanTrades raws, p.1 ≤ today)
    (hy : ∀ r1 ∈ out, ∀ r2 ∈ out, isoYearOf r1.date = isoYearOf r2.date) :
    List.Chain' (fun a b => a.week ≤ b.week) out := by
  have hp := out_dates_sorted h hle
  have hchain : List.Chain' (fun a b => a.date ≤ b.date) out := by
    have h1 : List.Chain' (· < ·) (out.map SummaryRow.date) := hp.chain'
    rw [List.chain'_map] at h1
    exact h1.imp fun a b hab => le_of_lt hab
  exact chain_week_le hchain (out_week_isoWeek h) hy

/-- C9 witness: the amended statement at a concrete input inside one ISO
year. -/
theorem c9_witness :
    List.Chain' (fun a b => a.week ≤ b.week)
      ((recalculate_all_summaries 100
        [⟨some (daysFromCivil 2024 1 1), some 1⟩,
         ⟨some (daysFromCivil 2024 3 5), some 2⟩] []
        (daysFromCivil 2024 3 5)).getD []) :=
  c9_week_monotone_same_isoyear 100
    [⟨some (daysFromCivil 2024 1 1), some 1⟩,
     ⟨some (daysFromCivil 2024 3 5), some 2⟩] []
    (daysFromCivil 2024 3 5)
    ((recalculate_all_summaries 100
        [⟨some (daysFromCivil 2024 1 1), some 1⟩,
         ⟨some (daysFromCivil 2024 3 5), some 2⟩] []
        (daysFromCivil 2024 3 5)).getD [])
    (by decide) (by decide) (by decide)

end ClaimEvaluations2

section ClaimEvaluations3

attribute [local semireducible] Rat.add Rat.mul Rat.inv Rat.sub Rat.ofScientific

/-- C5 (amended): rerunning the recomputation with unchanged trades, balance
and today, feeding back the deposits of the first run's output, reproduces
that output, provided the previously persisted summary given to the first
run is nonempty and all its deposit amounts are whole numbers of cents (as
any value previously written by the application is, having been rounded to
2 decimals). -/
theorem c5_idempotent_on_cent_deposits (init : ℚ) (raws : List RawTrade)
    (old : List (ℕ × ℚ)) (today : ℕ) (S1 : List SummaryRow)
    (hold : old ≠ [])
    (hcent : ∀ p ∈ old, ∃ k : ℤ, p.2 = (k : ℚ) / 100)
    (h : recalculate_all_summaries init raws old today = some S1) :
    recalculate_all_summaries init raws (depositsOf S1) today = some S1 := by
  rcases recalculate_cases h with ⟨hraw, hout⟩ | ⟨hraw, hts, hout⟩
  · rw [recalculate_all_summaries, if_pos hraw, hout]
  · have hR : recomputeRows init (cleanTrades raws) old
        = pass2 init old (pass1 init (cleanTrades raws)) := by
      rw [recomputeRows, if_neg hold]
    have hRne : recomputeRows init (cleanTrades raws) old ≠ [] :=
      recomputeRows_ne_nil hts
    have hS1ne : S1 ≠ [] := by
      rw [hout]
      exact appendToday_ne_nil hRne
    have hdepne : depositsOf S1 ≠ [] := by
      cases S1 with
      | nil => exact absurd rfl hS1ne
      | cons r rest => simp [depositsOf]
    have hagree : ∀ r ∈ pass1 init (cleanTrades raws),
        lookupDep (depositsOf S1) r.date = lookupDep old r.date := by
      intro r hr
      have hDmem : r.date ∈ (pass1 init (cleanTrades raws)).map SummaryRow.date :=
        List.mem_map.mpr ⟨r, hr, rfl⟩
      have hlk : lookupDep (depositsOf S1) r.date
          = round2 (lookupDep old r.date) := by
        rw [hout, hR]
        exact lookupDep_out_of_pass2 hDmem
      rcases lookupDep_cent hcent r.date with ⟨k, hk⟩
      rw [hlk, hk, round2_int_div_hundred]
    rw [recalculate_all_summaries, if_neg hraw, if_neg hts, recomputeRows,
      if_neg hdepne, pass2_congr hagree, ← hR, ← hout]

/-- C5 counterexample: deposits that are not whole cents (here 1/250 = 0.004
on two dates) leave sub-cent residue in the first run's carried balance but
are persisted rounded to 0.00, so the second run, fed the first run's output
deposits, produces a different sequence (the 2024-01-02 end balance drops
from 100.01 to 100.00). -/
theorem c5_counterexample :
    recalculate_all_summaries 100
        [⟨some (daysFromCivil 2024 1 1), some 0⟩,
         ⟨some (daysFromCivil 2024 1 2), some 0⟩,
         ⟨some (daysFromCivil 2024 1 3), some 0⟩]
        [(daysFromCivil 2024 1 1, 1 / 250), (daysFromCivil 2024 1 2, 1 / 250)]
        (daysFromCivil 2024 1 3)
      ≠ recalculate_all_summaries 100
        [⟨some (daysFromCivil 2024 1 1), some 0⟩,
         ⟨some (daysFromCivil 2024 1 2), some 0⟩,
         ⟨some (daysFromCivil 2024 1 3), some 0⟩]
        (depositsOf ((recalculate_all_summaries 100
          [⟨some (daysFromCivil 2024 1 1), some 0⟩,
           ⟨some (daysFromCivil 2024 1 2), some 0⟩,
           ⟨some (daysFromCivil 2024 1 3), some 0⟩]
          [(daysFromCivil 2024 1 1, 1 / 250), (daysFromCivil 2024 1 2, 1 / 250)]
          (daysFromCivil 2024 1 3)).getD []))
        (daysFromCivil 2024 1 3) := by
  decide

/-- C5 witness: the amended statement at a concrete input with a cent-valued
prior deposit. -/
theorem c5_witness :
    recalculate_all_summaries 100 [⟨some (daysFromCivil 2024 1 1), some 10⟩]
      (depositsOf ((recalculate_all_summaries 100
          [⟨some (daysFromCivil 2024 1 1), some 10⟩]
          [(daysFromCivil 2024 1 1, 5)] (daysFromCivil 2024 1 2)).getD []))
      (daysFromCivil 2024 1 2)
      = some ((recalculate_all_summaries 100
          [⟨some (daysFromCivil 2024 1 1), some 10⟩]
          [(daysFromCivil 2024 1 1, 5)] (daysFromCivil 2024 1 2)).getD []) :=
  c5_idempotent_on_cent_deposits 100
    [⟨some (daysFromCivil 2024 1 1), some 10⟩]
    [(daysFromCivil 2024 1 1, 5)] (daysFromCivil 2024 1 2)
    ((recalculate_all_summaries 100 [⟨some (daysFromCivil 2024 1 1), some 10⟩]
        [(daysFromCivil 2024 1 1, 5)] (daysFromCivil 2024 1 2)).getD [])
    (by decide)
    (fun p hp => by
      rw [List.mem_singleton] at hp
      rw [hp]
      exact ⟨500, by norm_num⟩)
    (by decide)

theorem recalc_lookup_trade_date {init : ℚ} {raws : List RawTrade}
    {old : List (ℕ × ℚ)} {today d : ℕ}
    (hraw : raws ≠ []) (hts : cleanTrades raws ≠ []) (hold : old ≠ [])
    (hd : d ∈ (cleanTrades raws).map Prod.fst) :
    (recalculate_all_summaries init raws old today).isSome = true ∧
    d ∈ ((recalculate_all_summaries init raws old today).getD []).map
        SummaryRow.date ∧
    lookupDep (depositsOf
        ((recalculate_all_summaries init raws old today).getD [])) d
      = round2 (lookupDep old d) := by
  have heq : recalculate_all_summaries init raws old today
      = some (appendToday today
          (pass2 init old (pass1 init (cleanTrades raws)))) := by
    rw [recalculate_all_summaries, if_neg hraw, if_neg hts, recomputeRows,
      if_neg hold]
  have hdp1 : d ∈ (pass1 init (cleanTrades raws)).map SummaryRow.date := by
    rw [pass1_map_date]
    exact mem_sortedDates.mpr hd
  refine ⟨by rw [heq]; rfl, ?_, ?_⟩
  · rw [heq]
    simp only [Option.getD_some]
    have hmem : d ∈ (pass2 init old
        (pass1 init (cleanTrades raws))).map SummaryRow.date := by
      rw [pass2_map_date]
      exact hdp1
    rcases List.mem_map.mp hmem with ⟨r2, hr2, hrd2⟩
    exact List.mem_map.mpr ⟨r2, mem_appendToday_of_mem hr2, hrd2⟩
  · rw [heq]
    simp only [Option.getD_some]
    exact lookupDep_out_of_pass2 hdp1

/-- C7 (amended): the deposit handler adds the amount to the deposit of the
first summary row of the given date when such a row exists (so repeated
deposits on one date accumulate), and appends a zero-valued placeholder row
otherwise; the recomputation it then triggers retains the updated deposit
only for dates with trade activity: for a date with at least one cleaned
trade, the persisted output contains a row for that date whose deposit is
the prior stored deposit plus the amount (rounded to 2 decimals). -/
theorem c7_deposit_kept_only_for_trade_dates (init : ℚ) (raws : List RawTrade)
    (summary : List SummaryRow) (d : ℕ) (amount : ℚ) (today : ℕ)
    (hsum : summary ≠ [])
    (hd : d ∈ (cleanTrades raws).map Prod.fst) :
    (recordDeposit init raws summary d amount today).isSome = true ∧
    d ∈ ((recordDeposit init raws summary d amount today).getD []).map
        SummaryRow.date ∧
    lookupDep (depositsOf
        ((recordDeposit init raws summary d amount today).getD [])) d
      = round2 (lookupDep (depositsOf summary) d + amount) := by
  have hts : cleanTrades raws ≠ [] := by
    intro hnil
    rw [hnil] at hd
    simp at hd
  have hraw : raws ≠ [] := by
    intro hnil
    rw [hnil] at hts
    exact hts rfl
  have hs'ne : (if d ∈ summary.map SummaryRow.date
      then updateDeposit d amount summary
      else summary ++ [placeholderRow d amount]) ≠ [] := by
    by_cases hmem : d ∈ summary.map SummaryRow.date
    · rw [if_pos hmem]
      exact updateDeposit_ne_nil hsum
    · rw [if_neg hmem]
      simp
  have holdne : depositsOf (if d ∈ summary.map SummaryRow.date
      then updateDeposit d amount summary
      else summary ++ [placeholderRow d amount]) ≠ [] := by
    cases hx : (if d ∈ summary.map SummaryRow.date
        then updateDeposit d amount summary
        else summary ++ [placeholderRow d amount]) with
    | nil => exact absurd hx hs'ne
    | cons r rest => simp [depositsOf]
  have base := @recalc_lookup_trade_date init raws
    (depositsOf (if d ∈ summary.map SummaryRow.date
      then updateDeposit d amount summary
      else summary ++ [placeholderRow d amount])) today d
    hraw hts holdne hd
  rw [recordDeposit, if_neg hsum]
  refine ⟨base.1, base.2.1, ?_⟩
  rw [base.2.2, depositBranch_lookup]

/-- C7 counterexample: a deposit recorded on 2024-01-02, a date with no trade
activity, is written as a placeholder row but then dropped by the triggered
recomputation: the persisted result has no row for 2024-01-02 and no deposit
of 50 anywhere, contradicting "a recompute that picks up the updated
deposit". -/
theorem c7_counterexample :
    recordDeposit 100 [⟨some (daysFromCivil 2024 1 1), some 10⟩]
        [⟨daysFromCivil 2024 1 1, 1, 1, 100, 13 / 2, 10, 0, 110⟩]
        (daysFromCivil 2024 1 2) 50 (daysFromCivil 2024 1 1)
      = some [⟨daysFromCivil 2024 1 1, 1, 1, 100, 13 / 2, 10, 0, 110⟩] ∧
    (50 : ℚ) ∉ ((recordDeposit 100 [⟨some (daysFromCivil 2024 1 1), some 10⟩]
        [⟨daysFromCivil 2024 1 1, 1, 1, 100, 13 / 2, 10, 0, 110⟩]
        (daysFromCivil 2024 1 2) 50 (daysFromCivil 2024 1 1)).getD []).map
        SummaryRow.deposit ∧
    daysFromCivil 2024 1 2
      ∉ ((recordDeposit 100 [⟨some (daysFromCivil 2024 1 1), some 10⟩]
        [⟨daysFromCivil 2024 1 1, 1, 1, 100, 13 / 2, 10, 0, 110⟩]
        (daysFromCivil 2024 1 2) 50 (daysFromCivil 2024 1 1)).getD []).map
        SummaryRow.date := by
  decide

/-- C7 witness: the amended statement at a concrete input where the deposit
date has trade activity. -/
theorem c7_witness :
    (recordDeposit 100 [⟨some (daysFromCivil 2024 1 1), some 10⟩]
        [⟨daysFromCivil 2024 1 1, 1, 1, 100, 13 / 2, 10, 0, 110⟩]
        (daysFromCivil 2024 1 1) 50 (daysFromCivil 2024 1 1)).isSome = true ∧
    daysFromCivil 2024 1 1
      ∈ ((recordDeposit 100 [⟨some (daysFromCivil 2024 1 1), some 10⟩]
        [⟨daysFromCivil 2024 1 1, 1, 1, 100, 13 / 2, 10, 0, 110⟩]
        (daysFromCivil 2024 1 1) 50 (daysFromCivil 2024 1 1)).getD []).map
        SummaryRow.date ∧
    lookupDep (depositsOf
        ((recordDeposit 100 [⟨some (daysFromCivil 2024 1 1), some 10⟩]
          [⟨daysFromCivil 2024 1 1, 1, 1, 100, 13 / 2, 10, 0, 110⟩]
          (daysFromCivil 2024 1 1) 50 (daysFromCivil 2024 1 1)).getD []))
        (daysFromCivil 2024 1 1)
      = round2 (lookupDep (depositsOf
          [⟨daysFromCivil 2024 1 1, 1, 1, 100, 13 / 2, 10, 0, 110⟩])
          (daysFromCivil 2024 1 1) + 50) :=
  c7_deposit_kept_only_for_trade_dates 100
    [⟨some (daysFromCivil 2024 1 1), some 10⟩]
    [⟨daysFromCivil 2024 1 1, 1, 1, 100, 13 / 2, 10, 0, 110⟩]
    (daysFromCivil 2024 1 1) 50 (daysFromCivil 2024 1 1)
    (by decide) (by decide)

end ClaimEvaluations3
